import Mathlib

/-!
# Scalingo2: query engine, aggregation and language cache of `main.go`

A shallow embedding of the pure core of `main.go`:

* the filtering loop and the pagination step of `repositoriesHandler`,
* the aggregation loops of `languagesSummaryHandler` and
  `countRepositoriesPerLanguage`,
* `Cache.Get`, `Cache.Set` and `fetchRepositoryLanguages`, with the remote
  lookup taken as an oracle.

Go `int` is the 64-bit two's complement integer: values are `Int`, and every
arithmetic operation of the source is followed by an explicit wrap into
`[-2^63, 2^63)`.  A Go `map[string]V` is an association list with distinct keys
(`AList`); iteration over a map visits its entries one by one.
-/

namespace Scalingo

/-! ## Go integers -/

/-- Two's complement wrap of an integer into the range of a 64-bit Go `int`. -/
def wrapInt (x : Int) : Int := (x + 2 ^ 63) % 2 ^ 64 - 2 ^ 63

/-- Go `a + b` on `int`. -/
def addInt (a b : Int) : Int := wrapInt (a + b)

/-- Go `a - b` on `int`. -/
def subInt (a b : Int) : Int := wrapInt (a - b)

/-- Go `a * b` on `int`. -/
def mulInt (a b : Int) : Int := wrapInt (a * b)

/-- The values a Go `int` can hold. -/
def IsGoInt (x : Int) : Prop := -2 ^ 63 ≤ x ∧ x < 2 ^ 63

instance (x : Int) : Decidable (IsGoInt x) := by
  unfold IsGoInt; exact inferInstance

/-! ## Data model -/

/-- Go `map[string]V`. -/
abbrev GoMap (V : Type) := AList (fun _ : String => V)

/-- The struct `LanguageDetails` with its field `Bytes int`. -/
structure LanguageDetails where
  Bytes : Int
deriving DecidableEq, Repr

/-- The struct `Owner` with its field `Login string`. -/
structure Owner where
  Login : String
deriving DecidableEq, Repr

/-- The struct `License` with its field `Name string`. -/
structure License where
  Name : String
deriving DecidableEq, Repr

/-- The struct `Repository`; the `*License` pointer is an `Option`. -/
structure Repository where
  FullName : String
  Owner : Scalingo.Owner
  RepositoryName : String
  Languages : GoMap LanguageDetails
  License : Option Scalingo.License
deriving DecidableEq

/-! ## `repositoriesHandler`: the filtering loop (lines 194-212) -/

/-- The condition of the first `continue`, inside `if language != ""`:
`!exists || (minBytes > 0 && bytes.Bytes < minBytes)`. -/
def languageRejects (language : String) (minBytes : Int) (repo : Repository) : Bool :=
  match repo.Languages.lookup language with
  | none => true
  | some bytes => decide (minBytes > 0) && decide (bytes.Bytes < minBytes)

/-- The condition of the second `continue`, inside `if license != ""`:
`repo.License == nil || repo.License.Name != license`. -/
def licenseRejects (license : String) (repo : Repository) : Bool :=
  match repo.License with
  | none => true
  | some l => decide (l.Name ≠ license)

/-- One iteration of `for _, repo := range repositories`. -/
def filterStep (language license : String) (minBytes : Int)
    (result : List Repository) (repo : Repository) : List Repository :=
  if language ≠ "" && languageRejects language minBytes repo then result
  else if license ≠ "" && licenseRejects license repo then result
  else result ++ [repo]

/-- The filtering loop of `repositoriesHandler`, started with `var result []Repository`. -/
def filterRepositories (repositories : List Repository) (language license : String)
    (minBytes : Int) : List Repository :=
  repositories.foldl (filterStep language license minBytes) []

/-- The inclusion predicate in the words of the specification: a threshold is
given when it is not `0`. -/
def PassesAsClaimed (language license : String) (minBytes : Int) (repo : Repository) : Prop :=
  (language = "" ∨
    ∃ b ∈ repo.Languages.lookup language, (minBytes ≠ 0 → minBytes ≤ b.Bytes)) ∧
  (license = "" ∨ ∃ l ∈ repo.License, l.Name = license)

/-- The inclusion predicate with the threshold active only when it is positive. -/
def Passes (language license : String) (minBytes : Int) (repo : Repository) : Prop :=
  (language = "" ∨
    ∃ b ∈ repo.Languages.lookup language, (0 < minBytes → minBytes ≤ b.Bytes)) ∧
  (license = "" ∨ ∃ l ∈ repo.License, l.Name = license)

instance (language license : String) (minBytes : Int) (repo : Repository) :
    Decidable (PassesAsClaimed language license minBytes repo) := by
  unfold PassesAsClaimed; exact inferInstance

instance (language license : String) (minBytes : Int) (repo : Repository) :
    Decidable (Passes language license minBytes repo) := by
  unfold Passes; exact inferInstance

/-- A record whose only language has a negative byte count. -/
def negativeRepo : Repository :=
  { FullName := "o/n", Owner := ⟨"o"⟩, RepositoryName := "n",
    Languages := (∅ : GoMap LanguageDetails).insert "Go" ⟨-10⟩, License := none }

/-! ## `repositoriesHandler`: parameters and pagination (lines 178-192, 214-223) -/

/-- Lines 178-184: `page := 1`, replaced by `parsedPage` when `pageStr != ""`,
`strconv.Atoi` returns no error and `parsedPage > 0`.  `atoi` stands for
`strconv.Atoi`, `none` being a non-nil `err`. -/
def parsePage (atoi : String → Option Int) (pageStr : String) : Int :=
  if pageStr ≠ "" then
    match atoi pageStr with
    | some parsedPage => if parsedPage > 0 then parsedPage else 1
    | none => 1
  else 1

/-- Lines 186-192: `perPage := 10`, replaced by `parsedPerPage` under the same test. -/
def parsePerPage (atoi : String → Option Int) (perPageStr : String) : Int :=
  if perPageStr ≠ "" then
    match atoi perPageStr with
    | some parsedPerPage => if parsedPerPage > 0 then parsedPerPage else 10
    | none => 10
  else 10

/-- Go slice expression `s[low:]`: it panics (`none`) unless `0 <= low <= len(s)`. -/
def sliceFrom {α : Type} (s : List α) (low : Int) : Option (List α) :=
  if 0 ≤ low ∧ low ≤ s.length then some (s.drop low.toNat) else none

/-- Go slice expression `s[low:high]`: it panics (`none`) unless
`0 <= low <= high <= cap(s)`.  At its only use `high <= len(s)` has just been
tested, so the upper bound is written with the length. -/
def sliceRange {α : Type} (s : List α) (low high : Int) : Option (List α) :=
  if 0 ≤ low ∧ low ≤ high ∧ high ≤ s.length then some ((s.take high.toNat).drop low.toNat)
  else none

/-- The start index `(page - 1) * perPage` as Go computes it. -/
def pageStart (page perPage : Int) : Int := mulInt (subInt page 1) perPage

/-- The end index `start + perPage` as Go computes it. -/
def pageEnd (page perPage : Int) : Int := addInt (pageStart page perPage) perPage

/-- The pagination step, lines 214-223; `none` is a run-time panic of a slice
expression. -/
def paginate (result : List Repository) (page perPage : Int) : Option (List Repository) :=
  let start := pageStart page perPage
  let end_ := pageEnd page perPage
  if start ≥ result.length then some []
  else if end_ > result.length then sliceFrom result start
  else sliceRange result start end_

/-- The list served by `repositoriesHandler` under the key `"repositories"`;
`minBytes` is the value left in the variable by `fmt.Sscanf`. -/
def repositoriesHandler (atoi : String → Option Int) (repositories : List Repository)
    (language license : String) (minBytes : Int) (pageStr perPageStr : String) :
    Option (List Repository) :=
  paginate (filterRepositories repositories language license minBytes)
    (parsePage atoi pageStr) (parsePerPage atoi perPageStr)

/-- A record with the given identifier and no language data. -/
def bareRepo (fullName : String) : Repository :=
  { FullName := fullName, Owner := ⟨""⟩, RepositoryName := "",
    Languages := ∅, License := none }

/-- Five records. -/
def fiveRepos : List Repository :=
  [bareRepo "a/1", bareRepo "a/2", bareRepo "a/3", bareRepo "a/4", bareRepo "a/5"]

/-! ## `languagesSummaryHandler` and `countRepositoriesPerLanguage` (lines 237-280) -/

/-- The statement `languageSummary[lang] += details.Bytes`: the entry is read with the zero
value for a missing key, added to in Go arithmetic, and stored. -/
def addBytes (languageSummary : GoMap Int) (lang : String) (bytes : Int) : GoMap Int :=
  languageSummary.insert lang (addInt ((languageSummary.lookup lang).getD 0) bytes)

/-- The inner loop `for lang, details := range repo.Languages` of lines 243-245. -/
def summaryOfRepo (languageSummary : GoMap Int) (repo : Repository) : GoMap Int :=
  repo.Languages.entries.foldl (fun acc e => addBytes acc e.1 e.2.Bytes) languageSummary

/-- The map `languageSummary` after the loop of lines 241-246. -/
def languageSummary (repositories : List Repository) : GoMap Int :=
  repositories.foldl summaryOfRepo ∅

/-- The variable `totalBytes` after the loop of lines 248-251. -/
def totalBytes (repositories : List Repository) : Int :=
  (languageSummary repositories).entries.foldl (fun total e => addInt total e.2) 0

/-- The value `(float64(bytes) / float64(totalBytes)) * 100` of line 255, kept as
the two integers that are converted and divided. -/
structure Percentage where
  bytes : Int
  totalBytes : Int
deriving DecidableEq, Repr

/-- Whether `encoding/json` can encode the float of line 255: it returns an
error for NaN and for an infinity and encodes every finite float.  The float is
NaN (`0 / 0`) or an infinity (`x / 0`) when the divisor is `0`; for a divisor
other than `0` it is finite, the quotient of two converted Go `int`s being at
most `2^63` in magnitude. -/
def Percentage.encodable (p : Percentage) : Bool := decide (p.totalBytes ≠ 0)

/-- The map `languagePercentage` after the loop of lines 253-256: one division
for every entry of `languageSummary`, with no test on `totalBytes`. -/
def languagePercentage (repositories : List Repository) : GoMap Percentage :=
  (languageSummary repositories).entries.foldl
    (fun acc e => acc.insert e.1 ⟨e.2, totalBytes repositories⟩) ∅

/-- The statement `languageCount[lang]++`. -/
def incrCount (languageCount : GoMap Int) (lang : String) : GoMap Int :=
  languageCount.insert lang (addInt ((languageCount.lookup lang).getD 0) 1)

/-- The inner loop `for lang := range repo.Languages` of lines 275-277. -/
def countOfRepo (languageCount : GoMap Int) (repo : Repository) : GoMap Int :=
  repo.Languages.entries.foldl (fun acc e => incrCount acc e.1) languageCount

/-- The function `countRepositoriesPerLanguage`, lines 272-280, over the global
`repositories`. -/
def countRepositoriesPerLanguage (repositories : List Repository) : GoMap Int :=
  repositories.foldl countOfRepo ∅

/-- The document `languagesSummaryHandler` serves, lines 258-269: the three maps
`language_summary`, `language_percentage`, `total_repositories_per_language`
when `Encode` succeeds.  When a percentage cannot be encoded `Encode` returns an
error, which line 269 drops, and nothing has been written: `none` is the empty
body served then. -/
def languagesSummaryHandler (repositories : List Repository) :
    Option (GoMap Int × GoMap Percentage × GoMap Int) :=
  if (languagePercentage repositories).entries.all (fun e => e.2.encodable) then
    some (languageSummary repositories, languagePercentage repositories,
      countRepositoriesPerLanguage repositories)
  else none

/-- The byte count of `lang` in a record, `0` when the key is missing. -/
def bytesOf (lang : String) (repo : Repository) : Int :=
  ((repo.Languages.lookup lang).map (fun d => d.Bytes)).getD 0

/-- The sum of every byte count of one record. -/
def repoBytes (repo : Repository) : Int :=
  (repo.Languages.entries.map (fun e => e.2.Bytes)).sum

/-- The number of records whose usage map contains `lang`. -/
def reposWith (lang : String) (repositories : List Repository) : Nat :=
  (repositories.filter (fun repo => decide (lang ∈ repo.Languages))).length

/-- Record A of the specification scenario. -/
def repoA : Repository :=
  { FullName := "o/A", Owner := ⟨"o"⟩, RepositoryName := "A",
    Languages := ((∅ : GoMap LanguageDetails).insert "Go" ⟨100⟩).insert "Rust" ⟨50⟩,
    License := some ⟨"MIT"⟩ }

/-- Record B of the specification scenario. -/
def repoB : Repository :=
  { FullName := "o/B", Owner := ⟨"o"⟩, RepositoryName := "B",
    Languages := (∅ : GoMap LanguageDetails).insert "Go" ⟨200⟩, License := none }

/-- A record whose only language has the largest byte count of a Go `int`. -/
def maxRepo : Repository :=
  { FullName := "o/max", Owner := ⟨"o"⟩, RepositoryName := "max",
    Languages := (∅ : GoMap LanguageDetails).insert "Go" ⟨9223372036854775807⟩,
    License := none }

/-- A record with one byte of Go. -/
def oneRepo : Repository :=
  { FullName := "o/one", Owner := ⟨"o"⟩, RepositoryName := "one",
    Languages := (∅ : GoMap LanguageDetails).insert "Go" ⟨1⟩, License := none }

/-- A record with one byte of Rust. -/
def rustRepo : Repository :=
  { FullName := "o/rust", Owner := ⟨"o"⟩, RepositoryName := "rust",
    Languages := (∅ : GoMap LanguageDetails).insert "Rust" ⟨1⟩, License := none }

/-- A record whose only language has byte count `0`. -/
def zeroRepo : Repository :=
  { FullName := "o/z", Owner := ⟨"o"⟩, RepositoryName := "z",
    Languages := (∅ : GoMap LanguageDetails).insert "Go" ⟨0⟩, License := none }

/-! ## The language cache and `fetchRepositoryLanguages` (lines 37-53, 110-153) -/

/-- The struct `Cache`; the mutex has no content in a sequential run. -/
structure Cache where
  store : GoMap (GoMap LanguageDetails)

/-- The method `Cache.Get`: the value and the `exists` flag, and the cache after the call.
A missing key gives the zero value of the map type. -/
def Cache.Get (c : Cache) (key : String) : (GoMap LanguageDetails × Bool) × Cache :=
  match c.store.lookup key with
  | some langDetails => ((langDetails, true), c)
  | none => ((∅, false), c)

/-- The method `Cache.Set`: `c.store[key] = value`. -/
def Cache.Set (c : Cache) (key : String) (value : GoMap LanguageDetails) : Cache :=
  { store := c.store.insert key value }

/-- What one remote lookup gives: `http.NewRequest` fails, `client.Do` fails, or
a response with a status code whose body decodes (`some`) or not (`none`). -/
inductive Response where
  | newRequestError : Response
  | doError : Response
  | status (code : Int) (body : Option (GoMap Int)) : Response

/-- The shared state of the enrichment phase: the cache and the number of
requests sent with `client.Do` so far. -/
structure World where
  cache : Cache
  lookups : Nat

/-- Lines 144-147: `langDetails[lang] = LanguageDetails{Bytes: bytes}` for every
entry of the decoded map. -/
def toLangDetails (languages : GoMap Int) : GoMap LanguageDetails :=
  languages.entries.foldl (fun acc e => acc.insert e.1 ⟨e.2⟩) ∅

/-- The function `fetchRepositoryLanguages`, lines 110-153.  `remote n id` is the outcome of
the lookup for `id` when `n` requests have been sent before. -/
def fetchRepositoryLanguages (remote : Nat → String → Response) (w : World)
    (repo : Repository) : World × Repository :=
  match w.cache.Get repo.FullName with
  | ((cachedLangs, true), cache) =>
    ({ w with cache := cache }, { repo with Languages := cachedLangs })
  | ((_, false), cache) =>
    let w1 : World := { cache := cache, lookups := w.lookups + 1 }
    match remote w.lookups repo.FullName with
    | Response.newRequestError => ({ w with cache := cache }, repo)
    | Response.doError => (w1, repo)
    | Response.status code body =>
      if code ≠ 200 then (w1, repo)
      else
        match body with
        | none => (w1, repo)
        | some languages =>
          let langDetails := toLangDetails languages
          ({ w1 with cache := w1.cache.Set repo.FullName langDetails },
            { repo with Languages := langDetails })

/-- The remote lookup for a record fails: request error, non-success status or
decode error. -/
def LookupFails (r : Response) : Prop :=
  match r with
  | Response.newRequestError => True
  | Response.doError => True
  | Response.status code body => code ≠ 200 ∨ body = none

/-- One call `fetchRepositoryLanguages(&repositories[i], token)`. -/
def enrichAt (remote : Nat → String → Response) (s : World × List Repository) (i : Nat) :
    World × List Repository :=
  match s.2[i]? with
  | none => s
  | some repo =>
    let r := fetchRepositoryLanguages remote s.1 repo
    (r.1, s.2.set i r.2)

/-- The loop `for repo := range repoChan` of `worker`, lines 155-161, in a
sequential run: the calls for the slots listed in `order`, one after the other. -/
def worker (remote : Nat → String → Response) (w : World) (repositories : List Repository)
    (order : List Nat) : World × List Repository :=
  order.foldl (enrichAt remote) (w, repositories)

/-- A language map held for `id` has a single source: the initial cache, or
the decoded body of one successful remote lookup for `id`. -/
def SingleSource (remote : Nat → String → Response) (cache0 : Cache) (id : String)
    (v : GoMap LanguageDetails) : Prop :=
  cache0.store.lookup id = some v ∨
    ∃ n languages, remote n id = Response.status 200 (some languages) ∧
      v = toLangDetails languages

/-- The invariant of the enrichment phase: every cache entry has a single
source, and every record's language map is empty or is the cache entry of the
record's identifier. -/
def EnrichInv (remote : Nat → String → Response) (cache0 : Cache)
    (s : World × List Repository) : Prop :=
  (∀ id v, s.1.cache.store.lookup id = some v → SingleSource remote cache0 id v) ∧
  (∀ repo ∈ s.2, repo.Languages.entries = [] ∨
    s.1.cache.store.lookup repo.FullName = some repo.Languages)

/-- A remote that answers the first request with `{Go: 7}` and fails afterwards. -/
def onceRemote (n : Nat) (_id : String) : Response :=
  if n = 0 then Response.status 200 (some ((∅ : GoMap Int).insert "Go" 7))
  else Response.status 500 none

/-- A world whose cache holds the language map of record A under `"o/A"`. -/
def warmWorld : World :=
  { cache := { store := (∅ : GoMap (GoMap LanguageDetails)).insert "o/A" repoA.Languages },
    lookups := 3 }

/-- A world with an empty cache. -/
def coldWorld : World := { cache := { store := ∅ }, lookups := 0 }

/-- A remote whose every request fails in `client.Do`. -/
def failingRemote (_n : Nat) (_id : String) : Response := Response.doError

/-! ## Theorems -/

theorem languageRejects_eq_false (language : String) (minBytes : Int) (repo : Repository) :
    languageRejects language minBytes repo = false ↔
      ∃ b ∈ repo.Languages.lookup language, (0 < minBytes → minBytes ≤ b.Bytes) := by
  unfold languageRejects
  cases hlk : repo.Languages.lookup language with
  | none => simp
  | some b => simp

theorem licenseRejects_eq_false (license : String) (repo : Repository) :
    licenseRejects license repo = false ↔ ∃ l ∈ repo.License, l.Name = license := by
  unfold licenseRejects
  cases hli : repo.License with
  | none => simp
  | some l => simp

theorem passes_iff (language license : String) (minBytes : Int) (repo : Repository) :
    Passes language license minBytes repo ↔
      (language = "" ∨ languageRejects language minBytes repo = false) ∧
      (license = "" ∨ licenseRejects license repo = false) := by
  rw [languageRejects_eq_false, licenseRejects_eq_false]; rfl

theorem filterStep_eq (language license : String) (minBytes : Int)
    (result : List Repository) (repo : Repository) :
    filterStep language license minBytes result repo =
      result ++ (if Passes language license minBytes repo then [repo] else []) := by
  by_cases hp : Passes language license minBytes repo
  · rw [if_pos hp]
    rw [passes_iff] at hp
    unfold filterStep
    rcases hp with ⟨h1 | h1, h2 | h2⟩ <;> simp [h1, h2]
  · rw [if_neg hp]
    rw [passes_iff] at hp
    unfold filterStep
    by_cases h1 : language = "" <;> by_cases h2 : license = "" <;>
      cases h3 : languageRejects language minBytes repo <;>
      cases h4 : licenseRejects license repo <;> simp_all

theorem foldl_filterStep (language license : String) (minBytes : Int)
    (repositories acc : List Repository) :
    repositories.foldl (filterStep language license minBytes) acc =
      acc ++ repositories.filter (fun repo => decide (Passes language license minBytes repo)) := by
  induction repositories generalizing acc with
  | nil => simp
  | cons repo rest ih =>
    rw [List.foldl_cons, ih, filterStep_eq]
    by_cases hp : Passes language license minBytes repo <;> simp [List.filter_cons, hp]

/-- C1, counterexample to the statement as written: with threshold `-5` (not `0`, so a threshold
is given) the loop keeps a record whose byte count for the language is `-10`,
which is below the threshold. -/
theorem filterRepositories_negative_threshold :
    filterRepositories [negativeRepo] "Go" "" (-5) = [negativeRepo] ∧
    ¬ PassesAsClaimed "Go" "" (-5) negativeRepo := by
  refine ⟨by rfl, by decide⟩

/-- C1, amended: the filtering loop keeps exactly the records that satisfy every
active filter, in store order, where the language filter asks for the key to be
present and, when the threshold is positive, for its byte count to reach it, and
the license filter asks for a license of that name.  Without a language filter
the threshold has no effect.  For a threshold that is not negative the
predicate is the one of the specification. -/
theorem filterRepositories_spec (repositories : List Repository) (language license : String)
    (minBytes : Int) :
    filterRepositories repositories language license minBytes =
        repositories.filter (fun repo => decide (Passes language license minBytes repo)) ∧
    (∀ repo, repo ∈ filterRepositories repositories language license minBytes ↔
        repo ∈ repositories ∧ Passes language license minBytes repo) ∧
    (filterRepositories repositories language license minBytes).Sublist repositories ∧
    filterRepositories repositories "" license minBytes =
        filterRepositories repositories "" license 0 ∧
    (0 ≤ minBytes → ∀ repo, Passes language license minBytes repo ↔
        PassesAsClaimed language license minBytes repo) := by
  have h : ∀ m, filterRepositories repositories language license m =
      repositories.filter (fun repo => decide (Passes language license m repo)) := by
    intro m
    unfold filterRepositories
    rw [foldl_filterStep]; simp
  refine ⟨h minBytes, ?_, ?_, ?_, ?_⟩
  · intro repo
    rw [h]; simp [List.mem_filter]
  · rw [h]; exact List.filter_sublist _
  · unfold filterRepositories
    rw [foldl_filterStep, foldl_filterStep]
    simp [Passes]
  · intro hm repo
    unfold Passes PassesAsClaimed
    have : (0 < minBytes) ↔ minBytes ≠ 0 := by omega
    simp only [this]

/-- The listing scenario of the specification: with records A `{Go: 100, Rust: 50}`,
license MIT, and B `{Go: 200}`, no license, the filter `language=Go&min_bytes=150`
keeps only B and the filter `license=MIT` keeps only A. -/
theorem scenario_repositories :
    filterRepositories [repoA, repoB] "Go" "" 150 = [repoB] ∧
    filterRepositories [repoA, repoB] "" "MIT" 0 = [repoA] ∧
    filterRepositories [repoA, repoB] "" "" 0 = [repoA, repoB] :=
  ⟨by rfl, by rfl, by rfl⟩

/-! ### Pagination -/

theorem wrapInt_of_range (x : Int) (h1 : -2 ^ 63 ≤ x) (h2 : x < 2 ^ 63) : wrapInt x = x := by
  unfold wrapInt; omega

theorem wrapInt_isGoInt (x : Int) : IsGoInt (wrapInt x) := by
  unfold IsGoInt wrapInt; omega

theorem wrapInt_add_left (a b : Int) : wrapInt (wrapInt a + b) = wrapInt (a + b) := by
  unfold wrapInt; omega

theorem wrapInt_add_right (a b : Int) : wrapInt (a + wrapInt b) = wrapInt (a + b) := by
  unfold wrapInt; omega

/-- Without overflow the two indices are the mathematical ones. -/
theorem pageStart_pageEnd_in_range (page perPage : Int) (hp : 1 ≤ page) (hpp : 0 < perPage)
    (hov : (page - 1) * perPage + perPage < 2 ^ 63) :
    pageStart page perPage = (page - 1) * perPage ∧
    pageEnd page perPage = (page - 1) * perPage + perPage := by
  have h0 : 0 ≤ (page - 1) * perPage := mul_nonneg (by omega) (by omega)
  have h1 : page - 1 ≤ (page - 1) * perPage := by nlinarith
  have hs : pageStart page perPage = (page - 1) * perPage := by
    unfold pageStart mulInt subInt
    rw [wrapInt_of_range (page - 1) (by omega) (by omega)]
    exact wrapInt_of_range _ (by omega) (by omega)
  refine ⟨hs, ?_⟩
  unfold pageEnd addInt
  rw [hs]
  exact wrapInt_of_range _ (by omega) (by omega)

/-- Pagination when `(page - 1) * perPage + perPage` fits in a Go `int`: the
result is the slice of at most `perPage` items that starts at the offset
`(page - 1) * perPage`, empty when the offset is at or beyond the length. -/
theorem paginate_in_range (result : List Repository) (page perPage : Int)
    (hp : 1 ≤ page) (hpp : 0 < perPage) (hov : (page - 1) * perPage + perPage < 2 ^ 63) :
    paginate result page perPage =
      some ((result.drop ((page - 1) * perPage).toNat).take perPage.toNat) := by
  obtain ⟨hs, he⟩ := pageStart_pageEnd_in_range page perPage hp hpp hov
  have h0 : 0 ≤ (page - 1) * perPage := mul_nonneg (by omega) (by omega)
  unfold paginate
  simp only [hs, he]
  generalize (page - 1) * perPage = o at h0 hov ⊢
  by_cases h1 : o ≥ (result.length : Int)
  · rw [if_pos h1, List.drop_eq_nil_of_le (by omega), List.take_nil]
  · rw [if_neg h1]
    by_cases h2 : o + perPage > (result.length : Int)
    · rw [if_pos h2]
      unfold sliceFrom
      rw [if_pos ⟨h0, by omega⟩, List.take_of_length_le]
      rw [List.length_drop]; omega
    · rw [if_neg h2]
      unfold sliceRange
      rw [if_pos ⟨h0, by omega, by omega⟩, List.drop_take]
      congr 2
      omega

/-- Cutting a list into `n` consecutive chunks of `k` items and gluing them
back gives the list, as soon as `n * k` covers its length. -/
theorem flatten_chunks {α : Type} (k n : Nat) (l : List α) (h : l.length ≤ n * k) :
    ((List.range n).map (fun i => (l.drop (i * k)).take k)).flatten = l := by
  induction n generalizing l with
  | zero =>
    have : l = [] := List.length_eq_zero.mp (by omega)
    subst this; rfl
  | succ n ih =>
    rw [List.range_succ_eq_map, List.map_cons, List.map_map, List.flatten_cons]
    have hfun : ((fun i => (l.drop (i * k)).take k) ∘ Nat.succ) =
        fun i => ((l.drop k).drop (i * k)).take k := by
      funext i
      simp only [Function.comp, List.drop_drop, Nat.succ_eq_add_one]
      congr 2
      rw [Nat.add_mul]; omega
    rw [hfun, ih (l.drop k) (by rw [List.length_drop, Nat.add_mul] at *; omega)]
    simp

/-- The partition property of the pagination step, for a page size and a list
whose indices cannot overflow: the pages `1, ..., ceil(len / perPage)` are the
consecutive chunks of the list, their concatenation is the list, and every
later page whose indices fit in a Go `int` is empty. -/
theorem paginate_partition_in_range (result : List Repository) (perPage : Nat)
    (hpp : 0 < perPage) (hfit : (perPage : Int) < 2 ^ 63)
    (hlen : (result.length : Int) ≤ 2 ^ 62) :
    (∀ i, i < (result.length + perPage - 1) / perPage →
      paginate result ((i : Int) + 1) perPage =
        some ((result.drop (i * perPage)).take perPage)) ∧
    ((List.range ((result.length + perPage - 1) / perPage)).map
      (fun i => (result.drop (i * perPage)).take perPage)).flatten = result ∧
    (∀ page : Int, (((result.length + perPage - 1) / perPage : Nat) : Int) < page →
      (page - 1) * perPage + perPage < 2 ^ 63 →
      paginate result page perPage = some []) := by
  have hdm := Nat.div_add_mod (result.length + perPage - 1) perPage
  have hmod := Nat.mod_lt (result.length + perPage - 1) hpp
  generalize (result.length + perPage - 1) / perPage = n at *
  generalize (result.length + perPage - 1) % perPage = r at *
  have hcover : result.length ≤ n * perPage := by
    rw [Nat.mul_comm] ; omega
  refine ⟨?_, flatten_chunks perPage n result hcover, ?_⟩
  · intro i hi
    have hle : (i + 1) * perPage ≤ n * perPage := Nat.mul_le_mul_right _ hi
    have hlt : i * perPage < result.length := by
      rw [Nat.add_mul] at hle
      rw [Nat.mul_comm n perPage] at hle
      omega
    have hov : ((i : Int) + 1 - 1) * perPage + perPage < 2 ^ 63 := by
      have hcast : ((i : Int) + 1 - 1) * perPage = ((i * perPage : Nat) : Int) := by
        push_cast; ring
      rw [hcast]
      rcases Nat.eq_zero_or_pos i with h0 | h0
      · subst h0; simpa using hfit
      · have : perPage ≤ i * perPage := Nat.le_mul_of_pos_left _ h0
        omega
    rw [paginate_in_range result ((i : Int) + 1) perPage (by omega) (by omega) hov]
    have hcast : (((i : Int) + 1 - 1) * perPage).toNat = i * perPage := by
      have : ((i : Int) + 1 - 1) * perPage = ((i * perPage : Nat) : Int) := by
        push_cast; ring
      rw [this, Int.toNat_natCast]
    rw [hcast, Int.toNat_natCast]
  · intro page hpage hov
    have hp1 : 1 ≤ page := by omega
    rw [paginate_in_range result page perPage hp1 (by omega) hov]
    have hge : result.length ≤ ((page - 1) * perPage).toNat := by
      have h1 : (n : Int) ≤ page - 1 := by omega
      have h2 : (n : Int) * perPage ≤ (page - 1) * perPage :=
        mul_le_mul_of_nonneg_right h1 (by omega)
      have h3 : ((n * perPage : Nat) : Int) ≤ (page - 1) * perPage := by
        push_cast; exact h2
      omega
    rw [List.drop_eq_nil_of_le hge, List.take_nil]

/-- The parameter handling hands every positive parsed value to the pagination. -/
theorem parse_accepts_positive (atoi : String → Option Int) (pageStr perPageStr : String)
    (page perPage : Int) (h1 : pageStr ≠ "") (h2 : perPageStr ≠ "")
    (h3 : atoi pageStr = some page) (h4 : atoi perPageStr = some perPage)
    (h5 : 0 < page) (h6 : 0 < perPage) :
    parsePage atoi pageStr = page ∧ parsePerPage atoi perPageStr = perPage := by
  unfold parsePage parsePerPage
  simp [h1, h2, h3, h4, h5, h6]

/-- C4, the code at `page=2147483649&per_page=4294967296`: both values are
positive Go `int`s, so the parameter handling accepts them; the product
`(page - 1) * perPage` is `2^63` and wraps to `-2^63`, the two tests against
`len(result)` let the negative indices through, and `result[start:end]` panics,
for an empty result as for one of five records. -/
theorem paginate_overflow_panics :
    IsGoInt 2147483649 ∧ IsGoInt 4294967296 ∧
    pageStart 2147483649 4294967296 = -9223372036854775808 ∧
    pageEnd 2147483649 4294967296 = -9223372032559808512 ∧
    paginate [] 2147483649 4294967296 = none ∧
    paginate fiveRepos 2147483649 4294967296 = none ∧
    (∀ atoi : String → Option Int,
      atoi "2147483649" = some 2147483649 → atoi "4294967296" = some 4294967296 →
      repositoriesHandler atoi fiveRepos "" "" 0 "2147483649" "4294967296" = none) := by
  refine ⟨by decide, by decide, by rfl, by rfl, by rfl, by rfl, ?_⟩
  intro atoi h1 h2
  unfold repositoriesHandler
  rw [(parse_accepts_positive atoi "2147483649" "4294967296" 2147483649 4294967296
    (by decide) (by decide) h1 h2 (by decide) (by decide)).1,
    (parse_accepts_positive atoi "2147483649" "4294967296" 2147483649 4294967296
    (by decide) (by decide) h1 h2 (by decide) (by decide)).2]
  rfl

/-- C3, the code at `page=4294967297&per_page=4294967296` over five records: the
offset `(page - 1) * perPage` is `2^64`, far beyond the count, but Go computes
`0`, and the page returned is the whole list instead of the empty list.  The
example of the specification, page 3 with page size 10, does return the empty
list. -/
theorem paginate_wrapped_offset :
    paginate fiveRepos 3 10 = some [] ∧
    IsGoInt 4294967297 ∧ IsGoInt 4294967296 ∧
    (fiveRepos.length : Int) ≤ (4294967297 - 1) * 4294967296 ∧
    pageStart 4294967297 4294967296 = 0 ∧
    paginate fiveRepos 4294967297 4294967296 = some fiveRepos := by
  refine ⟨by rfl, by decide, by decide, by decide, by rfl, by rfl⟩

/-- C2, the code at page size `4294967296` over one record: page 1, the only
page up to `ceil(1 / perPage)`, is the list, and the later page `4294967297` is
the list again instead of the empty list. -/
theorem paginate_later_page_not_empty :
    (([bareRepo "a/1"].length + 4294967296 - 1) / 4294967296 = 1) ∧
    paginate [bareRepo "a/1"] 1 4294967296 = some [bareRepo "a/1"] ∧
    paginate [bareRepo "a/1"] 4294967297 4294967296 = some [bareRepo "a/1"] := by
  refine ⟨by decide, by rfl, by rfl⟩

/-! ### Aggregation -/

/-- The inner accumulation loop, entry by entry: a key of the record gets its
weight added once, every other key keeps its entry. -/
theorem foldl_bump_lookup {V : Type} (w : V → Int) (es : List (Sigma fun _ : String => V))
    (hnd : es.NodupKeys) (acc : GoMap Int) (k : String) :
    (es.foldl (fun acc e => acc.insert e.1 (addInt ((acc.lookup e.1).getD 0) (w e.2))) acc).lookup k =
      match es.dlookup k with
      | some v => some (addInt ((acc.lookup k).getD 0) (w v))
      | none => acc.lookup k := by
  induction es generalizing acc with
  | nil => simp
  | cons e es ih =>
    obtain ⟨hk, hes⟩ := List.nodupKeys_cons.mp hnd
    rw [List.foldl_cons, ih hes]
    by_cases h : k = e.1
    · subst h
      have hnone : es.dlookup e.1 = none := List.dlookup_eq_none.mpr hk
      obtain ⟨k', v⟩ := e
      simp [hnone, List.dlookup_cons_eq]
    · rw [List.dlookup_cons_ne _ _ h]
      cases hl : es.dlookup k with
      | none => simp [AList.lookup_insert_ne h]
      | some v => simp [AList.lookup_insert_ne h]

theorem sum_weight_eq_zero (w : LanguageDetails → Int) (k : String) (repos : List Repository)
    (h : ¬ ∃ repo ∈ repos, k ∈ repo.Languages) :
    (repos.map (fun repo => ((repo.Languages.lookup k).map w).getD 0)).sum = 0 := by
  induction repos with
  | nil => simp
  | cons repo rest ih =>
    have h1 : k ∉ repo.Languages := fun hm => h ⟨repo, List.mem_cons_self _ _, hm⟩
    have h2 : ¬ ∃ r ∈ rest, k ∈ r.Languages := fun ⟨r, hr, hm⟩ =>
      h ⟨r, List.mem_cons_of_mem _ hr, hm⟩
    rw [List.map_cons, List.sum_cons, ih h2, AList.lookup_eq_none.mpr h1]
    simp

/-- The two nested accumulation loops: a key that occurs in some record ends
with the Go sum of its weights, any other key keeps the entry it had. -/
theorem foldl_repos_lookup (w : LanguageDetails → Int) (repos : List Repository)
    (acc : GoMap Int) (k : String) :
    ((∃ repo ∈ repos, k ∈ repo.Languages) →
      (repos.foldl (fun acc repo => repo.Languages.entries.foldl
          (fun acc e => acc.insert e.1 (addInt ((acc.lookup e.1).getD 0) (w e.2))) acc) acc).lookup k =
        some (wrapInt ((acc.lookup k).getD 0 +
          (repos.map (fun repo => ((repo.Languages.lookup k).map w).getD 0)).sum))) ∧
    ((¬ ∃ repo ∈ repos, k ∈ repo.Languages) →
      (repos.foldl (fun acc repo => repo.Languages.entries.foldl
          (fun acc e => acc.insert e.1 (addInt ((acc.lookup e.1).getD 0) (w e.2))) acc) acc).lookup k =
        acc.lookup k) := by
  induction repos generalizing acc with
  | nil => simp
  | cons repo rest ih =>
    rw [List.foldl_cons]
    have hstep := foldl_bump_lookup w repo.Languages.entries repo.Languages.nodupKeys acc k
    obtain ⟨ih1, ih2⟩ := ih (repo.Languages.entries.foldl
          (fun acc e => acc.insert e.1 (addInt ((acc.lookup e.1).getD 0) (w e.2))) acc)
    cases hl : repo.Languages.lookup k with
    | none =>
      have hl' : List.dlookup k repo.Languages.entries = none := hl
      rw [hl'] at hstep
      simp only at hstep
      have hnot : k ∉ repo.Languages := AList.lookup_eq_none.mp hl
      constructor
      · rintro ⟨r, hr, hm⟩
        have hex : ∃ r ∈ rest, k ∈ r.Languages := by
          rcases List.mem_cons.mp hr with rfl | hr
          · exact absurd hm hnot
          · exact ⟨r, hr, hm⟩
        rw [ih1 hex, hstep]
        simp [hl]
      · intro hno
        have hno' : ¬ ∃ r ∈ rest, k ∈ r.Languages := fun ⟨r, hr, hm⟩ =>
          hno ⟨r, List.mem_cons_of_mem _ hr, hm⟩
        rw [ih2 hno', hstep]
    | some v =>
      have hl' : List.dlookup k repo.Languages.entries = some v := hl
      rw [hl'] at hstep
      simp only at hstep
      have hin : k ∈ repo.Languages := by
        rw [← AList.lookup_isSome, hl]; rfl
      constructor
      · intro _
        by_cases hex : ∃ r ∈ rest, k ∈ r.Languages
        · rw [ih1 hex, hstep]
          simp only [Option.getD_some, List.map_cons, List.sum_cons, Option.map_some', addInt, hl]
          rw [wrapInt_add_left, add_assoc]
        · rw [ih2 hex, hstep, List.map_cons, List.sum_cons, sum_weight_eq_zero w k rest hex]
          simp [addInt, hl]
      · intro hno
        exact absurd ⟨repo, List.mem_cons_self _ _, hin⟩ hno

theorem sum_kerase (k : String) (l : List (Sigma fun _ : String => Int)) :
    ((l.kerase k).map (fun e => e.2)).sum =
      (l.map (fun e => e.2)).sum - (l.dlookup k).getD 0 := by
  induction l with
  | nil => simp
  | cons e t ih =>
    obtain ⟨k', v⟩ := e
    by_cases h : k = k'
    · subst h
      simp [List.kerase_cons_eq, List.dlookup_cons_eq]
    · have h' : k ≠ (⟨k', v⟩ : Sigma fun _ : String => Int).1 := h
      rw [List.kerase_cons_ne h', List.dlookup_cons_ne _ _ h', List.map_cons, List.sum_cons, ih]
      simp only [List.map_cons, List.sum_cons]
      omega

/-- Storing `v` under `k` changes the sum of the values by `v` minus the old entry. -/
theorem sum_insert (m : GoMap Int) (k : String) (v : Int) :
    ((m.insert k v).entries.map (fun e => e.2)).sum =
      v + ((m.entries.map (fun e => e.2)).sum - (m.lookup k).getD 0) := by
  rw [AList.insert_entries, List.map_cons, List.sum_cons, sum_kerase]
  rfl

/-- The inner loop adds, modulo `2^64`, the weights of the record to the sum of
the values of the accumulator. -/
theorem foldl_bump_sum {V : Type} (w : V → Int) (es : List (Sigma fun _ : String => V))
    (acc : GoMap Int) (c : Int) :
    wrapInt (((es.foldl (fun acc e => acc.insert e.1 (addInt ((acc.lookup e.1).getD 0) (w e.2)))
        acc).entries.map (fun e => e.2)).sum + c) =
      wrapInt ((acc.entries.map (fun e => e.2)).sum + (es.map (fun e => w e.2)).sum + c) := by
  induction es generalizing acc c with
  | nil => simp
  | cons e es ih =>
    rw [List.foldl_cons, ih, sum_insert, List.map_cons, List.sum_cons]
    generalize (acc.entries.map (fun e => e.2)).sum = A
    generalize (es.map (fun e => w e.2)).sum = B
    generalize (acc.lookup e.1).getD 0 = o
    generalize w e.2 = x
    unfold addInt wrapInt
    omega

theorem foldl_repos_sum (w : LanguageDetails → Int) (repos : List Repository)
    (acc : GoMap Int) :
    wrapInt (((repos.foldl (fun acc repo => repo.Languages.entries.foldl
          (fun acc e => acc.insert e.1 (addInt ((acc.lookup e.1).getD 0) (w e.2))) acc)
        acc).entries.map (fun e => e.2)).sum) =
      wrapInt ((acc.entries.map (fun e => e.2)).sum +
        (repos.map (fun repo => (repo.Languages.entries.map (fun e => w e.2)).sum)).sum) := by
  induction repos generalizing acc with
  | nil => simp
  | cons repo rest ih =>
    rw [List.foldl_cons, ih, foldl_bump_sum, List.map_cons, List.sum_cons, add_assoc]

/-- The loop `total += value` over the entries of a map, in Go arithmetic. -/
theorem foldl_addInt (es : List (Sigma fun _ : String => Int)) (t : Int) (ht : IsGoInt t) :
    es.foldl (fun total e => addInt total e.2) t = wrapInt (t + (es.map (fun e => e.2)).sum) := by
  induction es generalizing t with
  | nil =>
    unfold IsGoInt at ht
    simp only [List.foldl_nil, List.map_nil, List.sum_nil, add_zero]
    exact (wrapInt_of_range t ht.1 ht.2).symm
  | cons e es ih =>
    rw [List.foldl_cons, ih (addInt t e.2) (wrapInt_isGoInt _), List.map_cons, List.sum_cons]
    unfold addInt
    rw [wrapInt_add_left, add_assoc]

theorem languageSummary_eq (repositories : List Repository) :
    languageSummary repositories =
      repositories.foldl (fun acc repo => repo.Languages.entries.foldl
        (fun acc e => acc.insert e.1 (addInt ((acc.lookup e.1).getD 0) ((fun d => d.Bytes) e.2)))
        acc) ∅ := rfl

theorem countRepositoriesPerLanguage_eq (repositories : List Repository) :
    countRepositoriesPerLanguage repositories =
      repositories.foldl (fun acc repo => repo.Languages.entries.foldl
        (fun acc e => acc.insert e.1 (addInt ((acc.lookup e.1).getD 0)
          ((fun _ : LanguageDetails => (1 : Int)) e.2))) acc) ∅ := rfl

theorem mem_iff_lookup_ne_none {V : Type} (m : GoMap V) (k : String) :
    k ∈ m ↔ m.lookup k ≠ none := by
  rw [Ne, AList.lookup_eq_none]; simp

theorem mem_languageSummary (repositories : List Repository) (lang : String) :
    lang ∈ languageSummary repositories ↔ ∃ repo ∈ repositories, lang ∈ repo.Languages := by
  obtain ⟨h1, h2⟩ := foldl_repos_lookup (fun d => d.Bytes) repositories ∅ lang
  rw [mem_iff_lookup_ne_none, languageSummary_eq]
  by_cases hex : ∃ repo ∈ repositories, lang ∈ repo.Languages
  · rw [h1 hex]; simp [hex]
  · rw [h2 hex]; simp [hex]

theorem mem_countRepositoriesPerLanguage (repositories : List Repository) (lang : String) :
    lang ∈ countRepositoriesPerLanguage repositories ↔
      ∃ repo ∈ repositories, lang ∈ repo.Languages := by
  obtain ⟨h1, h2⟩ := foldl_repos_lookup (fun _ => (1 : Int)) repositories ∅ lang
  rw [mem_iff_lookup_ne_none, countRepositoriesPerLanguage_eq]
  by_cases hex : ∃ repo ∈ repositories, lang ∈ repo.Languages
  · rw [h1 hex]; simp [hex]
  · rw [h2 hex]; simp [hex]

theorem lookup_languageSummary (repositories : List Repository) (lang : String)
    (h : lang ∈ languageSummary repositories) :
    (languageSummary repositories).lookup lang =
      some (wrapInt ((repositories.map (bytesOf lang)).sum)) := by
  obtain ⟨h1, -⟩ := foldl_repos_lookup (fun d => d.Bytes) repositories ∅ lang
  rw [languageSummary_eq, h1 ((mem_languageSummary repositories lang).mp h)]
  simp only [AList.lookup_empty, Option.getD_none, zero_add]
  rfl

theorem totalBytes_eq_sum_values (repositories : List Repository) :
    totalBytes repositories =
      wrapInt (((languageSummary repositories).entries.map (fun e => e.2)).sum) := by
  unfold totalBytes
  rw [foldl_addInt _ 0 (by unfold IsGoInt; omega), zero_add]

theorem totalBytes_eq_sum_all (repositories : List Repository) :
    totalBytes repositories = wrapInt ((repositories.map repoBytes).sum) := by
  rw [totalBytes_eq_sum_values, languageSummary_eq,
    foldl_repos_sum (fun d => d.Bytes) repositories ∅]
  simp only [AList.empty_entries, List.map_nil, List.sum_nil, zero_add]
  rfl

theorem repoBytes_nonneg (repo : Repository)
    (hnn : ∀ e ∈ repo.Languages.entries, 0 ≤ e.2.Bytes) : 0 ≤ repoBytes repo := by
  unfold repoBytes
  apply List.sum_nonneg
  intro x hx
  obtain ⟨e, he, rfl⟩ := List.mem_map.mp hx
  exact hnn e he

theorem bytesOf_bounds (lang : String) (repo : Repository)
    (hnn : ∀ e ∈ repo.Languages.entries, 0 ≤ e.2.Bytes) :
    0 ≤ bytesOf lang repo ∧ bytesOf lang repo ≤ repoBytes repo := by
  unfold bytesOf
  cases hl : repo.Languages.lookup lang with
  | none => exact ⟨le_refl _, repoBytes_nonneg repo hnn⟩
  | some d =>
    have hmem : (⟨lang, d⟩ : Sigma fun _ : String => LanguageDetails) ∈ repo.Languages.entries :=
      AList.mem_lookup_iff.mp hl
    refine ⟨hnn _ hmem, ?_⟩
    unfold repoBytes
    apply List.single_le_sum
    · intro x hx
      obtain ⟨e, he, rfl⟩ := List.mem_map.mp hx
      exact hnn e he
    · exact List.mem_map.mpr ⟨_, hmem, rfl⟩

theorem sum_bytesOf_bounds (lang : String) (repositories : List Repository)
    (hnn : ∀ repo ∈ repositories, ∀ e ∈ repo.Languages.entries, 0 ≤ e.2.Bytes) :
    0 ≤ (repositories.map (bytesOf lang)).sum ∧
    (repositories.map (bytesOf lang)).sum ≤ (repositories.map repoBytes).sum := by
  induction repositories with
  | nil => simp
  | cons repo rest ih =>
    obtain ⟨h1, h2⟩ := ih (fun r hr => hnn r (List.mem_cons_of_mem _ hr))
    obtain ⟨h3, h4⟩ := bytesOf_bounds lang repo (hnn repo (List.mem_cons_self _ _))
    simp only [List.map_cons, List.sum_cons]
    constructor <;> omega

theorem lookup_getD_bounds (m : GoMap Int) (k : String)
    (hm : ∀ e ∈ m.entries, 0 ≤ e.2) :
    0 ≤ (m.lookup k).getD 0 ∧ (m.lookup k).getD 0 ≤ (m.entries.map (fun e => e.2)).sum := by
  have hsum : 0 ≤ (m.entries.map (fun e => e.2)).sum := by
    apply List.sum_nonneg
    intro x hx
    obtain ⟨e, he, rfl⟩ := List.mem_map.mp hx
    exact hm e he
  cases hl : m.lookup k with
  | none => exact ⟨le_refl _, hsum⟩
  | some v =>
    have hmem : (⟨k, v⟩ : Sigma fun _ : String => Int) ∈ m.entries := AList.mem_lookup_iff.mp hl
    refine ⟨hm _ hmem, ?_⟩
    apply List.single_le_sum
    · intro x hx
      obtain ⟨e, he, rfl⟩ := List.mem_map.mp hx
      exact hm e he
    · exact List.mem_map.mpr ⟨_, hmem, rfl⟩

/-- The inner loop without overflow: the sum of the values grows by exactly the
weights of the record. -/
theorem foldl_bump_sum_exact {V : Type} (w : V → Int) (es : List (Sigma fun _ : String => V))
    (acc : GoMap Int) (hw : ∀ e ∈ es, 0 ≤ w e.2) (hacc : ∀ e ∈ acc.entries, 0 ≤ e.2)
    (hfit : (acc.entries.map (fun e => e.2)).sum + (es.map (fun e => w e.2)).sum < 2 ^ 63) :
    (∀ e ∈ (es.foldl (fun acc e => acc.insert e.1 (addInt ((acc.lookup e.1).getD 0) (w e.2)))
        acc).entries, 0 ≤ e.2) ∧
    ((es.foldl (fun acc e => acc.insert e.1 (addInt ((acc.lookup e.1).getD 0) (w e.2)))
        acc).entries.map (fun e => e.2)).sum =
      (acc.entries.map (fun e => e.2)).sum + (es.map (fun e => w e.2)).sum := by
  induction es generalizing acc with
  | nil => simpa using hacc
  | cons e es ih =>
    have hwe : 0 ≤ w e.2 := hw e (List.mem_cons_self _ _)
    have hrest : 0 ≤ (es.map (fun e => w e.2)).sum := by
      apply List.sum_nonneg
      intro x hx
      obtain ⟨e', he', rfl⟩ := List.mem_map.mp hx
      exact hw e' (List.mem_cons_of_mem _ he')
    obtain ⟨ho1, ho2⟩ := lookup_getD_bounds acc e.1 hacc
    rw [List.map_cons, List.sum_cons] at hfit
    have hadd : addInt ((acc.lookup e.1).getD 0) (w e.2) = (acc.lookup e.1).getD 0 + w e.2 :=
      wrapInt_of_range _ (by omega) (by omega)
    have hsum := sum_insert acc e.1 (addInt ((acc.lookup e.1).getD 0) (w e.2))
    rw [hadd] at hsum
    have hnn : ∀ e' ∈ (acc.insert e.1 (addInt ((acc.lookup e.1).getD 0) (w e.2))).entries,
        0 ≤ e'.2 := by
      intro e' he'
      rw [AList.insert_entries] at he'
      rcases List.mem_cons.mp he' with rfl | he'
      · show 0 ≤ addInt ((acc.lookup e.1).getD 0) (w e.2)
        rw [hadd]; omega
      · exact hacc e' ((List.kerase_sublist _ _).subset he')
    obtain ⟨ih1, ih2⟩ := ih (acc.insert e.1 (addInt ((acc.lookup e.1).getD 0) (w e.2)))
      (fun e' he' => hw e' (List.mem_cons_of_mem _ he')) hnn (by rw [hadd] at *; omega)
    rw [List.foldl_cons]
    refine ⟨ih1, ?_⟩
    rw [ih2, List.map_cons, List.sum_cons, hadd] at *
    omega

/-- The two nested loops without overflow. -/
theorem foldl_repos_sum_exact (w : LanguageDetails → Int) (repos : List Repository)
    (acc : GoMap Int) (hw : ∀ repo ∈ repos, ∀ e ∈ repo.Languages.entries, 0 ≤ w e.2)
    (hacc : ∀ e ∈ acc.entries, 0 ≤ e.2)
    (hfit : (acc.entries.map (fun e => e.2)).sum +
      (repos.map (fun repo => (repo.Languages.entries.map (fun e => w e.2)).sum)).sum < 2 ^ 63) :
    ((repos.foldl (fun acc repo => repo.Languages.entries.foldl
          (fun acc e => acc.insert e.1 (addInt ((acc.lookup e.1).getD 0) (w e.2))) acc)
        acc).entries.map (fun e => e.2)).sum =
      (acc.entries.map (fun e => e.2)).sum +
        (repos.map (fun repo => (repo.Languages.entries.map (fun e => w e.2)).sum)).sum := by
  induction repos generalizing acc with
  | nil => simp
  | cons repo rest ih =>
    have hrest : 0 ≤ (rest.map (fun repo =>
        (repo.Languages.entries.map (fun e => w e.2)).sum)).sum := by
      apply List.sum_nonneg
      intro x hx
      obtain ⟨r, hr, rfl⟩ := List.mem_map.mp hx
      apply List.sum_nonneg
      intro y hy
      obtain ⟨e, he, rfl⟩ := List.mem_map.mp hy
      exact hw r (List.mem_cons_of_mem _ hr) e he
    rw [List.map_cons, List.sum_cons] at hfit
    obtain ⟨h1, h2⟩ := foldl_bump_sum_exact w repo.Languages.entries acc
      (hw repo (List.mem_cons_self _ _)) hacc (by omega)
    rw [List.foldl_cons, ih _ (fun r hr => hw r (List.mem_cons_of_mem _ hr)) h1
      (by rw [h2]; omega), h2, List.map_cons, List.sum_cons]
    omega

/-- The aggregation as Go computes it: `languageSummary` has an entry exactly for
the keys that occur in some record, the entry of a key is the sum of that key's
byte counts wrapped to 64 bits, and `totalBytes` is the wrapped sum of the values
of `languageSummary` and the wrapped sum of every byte count of every record.
When the byte counts are not negative and their total fits in an `int`, nothing
wraps and the three are the sums themselves. -/
theorem languageSummary_wrapped_sums (repositories : List Repository) :
    (∀ lang, lang ∈ languageSummary repositories ↔
      ∃ repo ∈ repositories, lang ∈ repo.Languages) ∧
    (∀ lang, lang ∈ languageSummary repositories →
      (languageSummary repositories).lookup lang =
        some (wrapInt ((repositories.map (bytesOf lang)).sum))) ∧
    totalBytes repositories =
      wrapInt (((languageSummary repositories).entries.map (fun e => e.2)).sum) ∧
    totalBytes repositories = wrapInt ((repositories.map repoBytes).sum) ∧
    ((∀ repo ∈ repositories, ∀ e ∈ repo.Languages.entries, 0 ≤ e.2.Bytes) →
      (repositories.map repoBytes).sum < 2 ^ 63 →
      (∀ lang, lang ∈ languageSummary repositories →
        (languageSummary repositories).lookup lang =
          some ((repositories.map (bytesOf lang)).sum)) ∧
      totalBytes repositories =
        ((languageSummary repositories).entries.map (fun e => e.2)).sum ∧
      totalBytes repositories = (repositories.map repoBytes).sum) := by
  refine ⟨mem_languageSummary repositories, lookup_languageSummary repositories,
    totalBytes_eq_sum_values repositories, totalBytes_eq_sum_all repositories, ?_⟩
  intro hnn hfit
  have htot : 0 ≤ (repositories.map repoBytes).sum := by
    apply List.sum_nonneg
    intro x hx
    obtain ⟨r, hr, rfl⟩ := List.mem_map.mp hx
    exact repoBytes_nonneg r (hnn r hr)
  have hall : totalBytes repositories = (repositories.map repoBytes).sum := by
    rw [totalBytes_eq_sum_all]
    exact wrapInt_of_range _ (by omega) hfit
  have hlk : ∀ lang, lang ∈ languageSummary repositories →
      (languageSummary repositories).lookup lang =
        some ((repositories.map (bytesOf lang)).sum) := by
    intro lang hlang
    obtain ⟨h1, h2⟩ := sum_bytesOf_bounds lang repositories hnn
    rw [lookup_languageSummary repositories lang hlang,
      wrapInt_of_range _ (by omega) (by omega)]
  refine ⟨hlk, ?_, hall⟩
  rw [hall, languageSummary_eq,
    foldl_repos_sum_exact (fun d => d.Bytes) repositories ∅ hnn (by simp)
      (by simpa [repoBytes] using hfit)]
  simp only [AList.empty_entries, List.map_nil, List.sum_nil, zero_add]
  rfl

theorem sum_ones_eq_reposWith (lang : String) (repositories : List Repository) :
    (repositories.map (fun repo =>
        ((repo.Languages.lookup lang).map (fun _ : LanguageDetails => (1 : Int))).getD 0)).sum =
      (reposWith lang repositories : Int) := by
  unfold reposWith
  induction repositories with
  | nil => simp
  | cons repo rest ih =>
    rw [List.map_cons, List.sum_cons, ih, List.filter_cons]
    by_cases h : lang ∈ repo.Languages
    · obtain ⟨v, hv⟩ := Option.isSome_iff_exists.mp (AList.lookup_isSome.mpr h)
      simp [h, hv]
      omega
    · simp [h, AList.lookup_eq_none.mpr h]

/-- C7: the map returned by `countRepositoriesPerLanguage` has an entry exactly
for the keys that occur in at least one record, the entry of a key is the number
of records whose usage map contains the key, whatever the byte count, and its
keys are the keys of `languageSummary`. -/
theorem countRepositoriesPerLanguage_spec (repositories : List Repository)
    (hlen : (repositories.length : Int) < 2 ^ 63) :
    (∀ lang, lang ∈ countRepositoriesPerLanguage repositories ↔
      ∃ repo ∈ repositories, lang ∈ repo.Languages) ∧
    (∀ lang, lang ∈ countRepositoriesPerLanguage repositories →
      (countRepositoriesPerLanguage repositories).lookup lang =
        some (reposWith lang repositories : Int)) ∧
    (∀ lang, lang ∉ countRepositoriesPerLanguage repositories →
      reposWith lang repositories = 0) ∧
    (∀ lang, lang ∈ countRepositoriesPerLanguage repositories ↔
      lang ∈ languageSummary repositories) := by
  refine ⟨mem_countRepositoriesPerLanguage repositories, ?_, ?_, ?_⟩
  · intro lang hlang
    obtain ⟨h1, -⟩ := foldl_repos_lookup (fun _ => (1 : Int)) repositories ∅ lang
    rw [countRepositoriesPerLanguage_eq,
      h1 ((mem_countRepositoriesPerLanguage repositories lang).mp hlang)]
    simp only [AList.lookup_empty, Option.getD_none, zero_add]
    rw [sum_ones_eq_reposWith]
    have hle : reposWith lang repositories ≤ repositories.length := List.length_filter_le _ _
    rw [wrapInt_of_range _ (by omega) (by omega)]
  · intro lang hlang
    rw [mem_countRepositoriesPerLanguage] at hlang
    unfold reposWith
    rw [List.length_eq_zero, List.filter_eq_nil_iff]
    intro repo hrepo hmem
    exact hlang ⟨repo, hrepo, by simpa using hmem⟩
  · intro lang
    rw [mem_countRepositoriesPerLanguage, mem_languageSummary]

/-- C7 at the two records of the specification scenario. -/
theorem countRepositoriesPerLanguage_spec_witness :
    ((([repoA, repoB] : List Repository).length : Int) < 2 ^ 63) ∧
    (countRepositoriesPerLanguage [repoA, repoB]).lookup "Go" = some 2 ∧
    (countRepositoriesPerLanguage [repoA, repoB]).lookup "Rust" = some 1 ∧
    (∀ lang, lang ∈ countRepositoriesPerLanguage [repoA, repoB] ↔
      lang ∈ languageSummary [repoA, repoB]) :=
  ⟨by decide, by rfl, by rfl,
    (countRepositoriesPerLanguage_spec [repoA, repoB] (by decide)).2.2.2⟩

/-- C5, the code at stores whose byte counts add up to `2^63`: with the records
`{Go: 2^63 - 1}` and `{Go: 1}` the entry of `Go` in `languageSummary` is `-2^63`,
not the sum `2^63` of the two byte counts; with the records `{Go: 2^63 - 1}` and
`{Rust: 1}` every entry of `languageSummary` is right but `totalBytes` is `-2^63`,
not the sum `2^63` of the values of `languageSummary`.  The additions of lines 244
and 250 wrap. -/
theorem languageSummary_overflow :
    IsGoInt 9223372036854775807 ∧
    (languageSummary [maxRepo, oneRepo]).lookup "Go" = some (-9223372036854775808) ∧
    ([maxRepo, oneRepo].map (bytesOf "Go")).sum = 9223372036854775808 ∧
    (languageSummary [maxRepo, rustRepo]).lookup "Go" = some 9223372036854775807 ∧
    (languageSummary [maxRepo, rustRepo]).lookup "Rust" = some 1 ∧
    ((languageSummary [maxRepo, rustRepo]).entries.map (fun e => e.2)).sum =
      9223372036854775808 ∧
    ([maxRepo, rustRepo].map repoBytes).sum = 9223372036854775808 ∧
    totalBytes [maxRepo, rustRepo] = -9223372036854775808 :=
  ⟨by decide, by rfl, by rfl, by rfl, by rfl, by rfl, by rfl, by rfl⟩

/-- The aggregation scenario of the specification: the summary is
`{Go: 300, Rust: 50}`, the percentages are `300/350` and `50/350`, the counts
are `{Go: 2, Rust: 1}`. -/
theorem scenario_languages_summary :
    languagesSummaryHandler [repoA, repoB] =
      some (languageSummary [repoA, repoB], languagePercentage [repoA, repoB],
        countRepositoriesPerLanguage [repoA, repoB]) ∧
    (languageSummary [repoA, repoB]).lookup "Go" = some 300 ∧
    (languageSummary [repoA, repoB]).lookup "Rust" = some 50 ∧
    totalBytes [repoA, repoB] = 350 ∧
    (languagePercentage [repoA, repoB]).lookup "Go" = some ⟨300, 350⟩ ∧
    (languagePercentage [repoA, repoB]).lookup "Rust" = some ⟨50, 350⟩ ∧
    (countRepositoriesPerLanguage [repoA, repoB]).lookup "Go" = some 2 ∧
    (countRepositoriesPerLanguage [repoA, repoB]).lookup "Rust" = some 1 :=
  ⟨if_pos (by rfl), by rfl, by rfl, by rfl, by rfl, by rfl, by rfl, by rfl⟩

/-- A loop that stores `g v` under every key of a map. -/
theorem foldl_insert_lookup {V W : Type} (g : V → W) (es : List (Sigma fun _ : String => V))
    (hnd : es.NodupKeys) (acc : GoMap W) (k : String) :
    (es.foldl (fun acc e => acc.insert e.1 (g e.2)) acc).lookup k =
      match es.dlookup k with
      | some v => some (g v)
      | none => acc.lookup k := by
  induction es generalizing acc with
  | nil => simp
  | cons e es ih =>
    obtain ⟨hk, hes⟩ := List.nodupKeys_cons.mp hnd
    rw [List.foldl_cons, ih hes]
    by_cases h : k = e.1
    · subst h
      have hnone : es.dlookup e.1 = none := List.dlookup_eq_none.mpr hk
      obtain ⟨k', v⟩ := e
      simp [hnone, List.dlookup_cons_eq]
    · rw [List.dlookup_cons_ne _ _ h]
      cases hl : es.dlookup k with
      | none => simp [AList.lookup_insert_ne h]
      | some v => simp

theorem lookup_languagePercentage (repositories : List Repository) (lang : String) :
    (languagePercentage repositories).lookup lang =
      ((languageSummary repositories).lookup lang).map
        (fun bytes => (⟨bytes, totalBytes repositories⟩ : Percentage)) := by
  unfold languagePercentage
  rw [foldl_insert_lookup (fun bytes => (⟨bytes, totalBytes repositories⟩ : Percentage))
    (languageSummary repositories).entries (languageSummary repositories).nodupKeys ∅ lang]
  show _ = Option.map _ (List.dlookup lang (languageSummary repositories).entries)
  cases List.dlookup lang (languageSummary repositories).entries <;> simp

theorem entries_eq_nil_iff {V : Type} (m : GoMap V) : m.entries = [] ↔ ∀ k, k ∉ m := by
  constructor
  · intro h k hk
    rw [AList.mem_keys, AList.keys, h] at hk
    simp at hk
  · intro h
    cases hm : m.entries with
    | nil => rfl
    | cons e t =>
      exfalso
      apply h e.1
      rw [AList.mem_keys, AList.keys, hm]
      simp

/-- The keys of `languagePercentage` are the keys of `languageSummary`, whatever
the total: every entry of the summary is divided by `totalBytes`, and the map is
empty exactly when no record's usage map contains a key. -/
theorem languagePercentage_keys (repositories : List Repository) :
    (∀ lang, lang ∈ languagePercentage repositories ↔ lang ∈ languageSummary repositories) ∧
    ((languagePercentage repositories).entries = [] ↔
      ∀ repo ∈ repositories, repo.Languages.entries = []) := by
  have hmem : ∀ lang, lang ∈ languagePercentage repositories ↔
      lang ∈ languageSummary repositories := by
    intro lang
    rw [mem_iff_lookup_ne_none, mem_iff_lookup_ne_none, lookup_languagePercentage]
    cases (languageSummary repositories).lookup lang <;> simp
  refine ⟨hmem, ?_⟩
  rw [entries_eq_nil_iff]
  constructor
  · intro hno repo hrepo
    rw [entries_eq_nil_iff]
    intro k hk
    exact hno k ((hmem k).mpr ((mem_languageSummary repositories k).mpr ⟨repo, hrepo, hk⟩))
  · intro hall k hk
    obtain ⟨repo, hrepo, hk'⟩ := (mem_languageSummary repositories k).mp ((hmem k).mp hk)
    exact (entries_eq_nil_iff _).mp (hall repo hrepo) k hk'

/-- Every entry of `languagePercentage` has the divisor `totalBytes`. -/
theorem languagePercentage_divisor (repositories : List Repository)
    (e : Sigma fun _ : String => Percentage)
    (he : e ∈ (languagePercentage repositories).entries) :
    e.2.totalBytes = totalBytes repositories := by
  obtain ⟨k, p⟩ := e
  have hl : (languagePercentage repositories).lookup k = some p := AList.mem_lookup_iff.mpr he
  rw [lookup_languagePercentage] at hl
  cases hs : (languageSummary repositories).lookup k with
  | none => rw [hs] at hl; simp at hl
  | some bytes =>
    rw [hs] at hl
    simp only [Option.map_some', Option.some.injEq] at hl
    rw [← hl]

/-- The handler serves an empty body exactly when the total is zero and some
record's usage map contains a key. -/
theorem languagesSummaryHandler_eq_none_iff (repositories : List Repository) :
    languagesSummaryHandler repositories = none ↔
      totalBytes repositories = 0 ∧ ∃ repo ∈ repositories, repo.Languages.entries ≠ [] := by
  obtain ⟨-, hnil⟩ := languagePercentage_keys repositories
  unfold languagesSummaryHandler
  constructor
  · intro h
    by_cases hall : (languagePercentage repositories).entries.all (fun e => e.2.encodable) = true
    · rw [if_pos hall] at h
      exact absurd h (by simp)
    · rw [List.all_eq_true] at hall
      push_neg at hall
      obtain ⟨e, he, henc⟩ := hall
      have hz : totalBytes repositories = 0 := by
        rw [← languagePercentage_divisor repositories e he]
        simpa [Percentage.encodable] using henc
      refine ⟨hz, ?_⟩
      by_contra hno
      push_neg at hno
      rw [hnil.mpr hno] at he
      simp at he
  · rintro ⟨hz, repo, hrepo, hne⟩
    have hall : ¬ (languagePercentage repositories).entries.all (fun e => e.2.encodable) = true := by
      intro hall
      rw [List.all_eq_true] at hall
      cases hm : (languagePercentage repositories).entries with
      | nil => exact hne (hnil.mp hm repo hrepo)
      | cons e t =>
        have he : e ∈ (languagePercentage repositories).entries := by
          rw [hm]; exact List.mem_cons_self _ _
        have henc := hall e he
        have hd := languagePercentage_divisor repositories e he
        rw [hz] at hd
        simp [Percentage.encodable, hd] at henc
    rw [if_neg hall]

/-- C6, the code at the store of one record `{Go: 0}`: the total is zero, yet
`languagePercentage` is not empty, it has an entry for `Go`, the division of `0`
by the total `0`; that value cannot be encoded and the handler serves an empty
body. -/
theorem languagePercentage_zero_total_nonempty :
    totalBytes [zeroRepo] = 0 ∧
    (languagePercentage [zeroRepo]).lookup "Go" = some ⟨0, 0⟩ ∧
    (languagePercentage [zeroRepo]).entries ≠ [] ∧
    languagesSummaryHandler [zeroRepo] = none := by
  refine ⟨by rfl, by rfl, ?_, by rfl⟩
  intro h
  have := (entries_eq_nil_iff _).mp h "Go"
  rw [mem_iff_lookup_ne_none] at this
  exact this (by rw [show (languagePercentage [zeroRepo]).lookup "Go" = some ⟨0, 0⟩ from rfl]; simp)

/-! ### The language cache and the enrichment -/

theorem fetch_hit (remote : Nat → String → Response) (w : World) (repo : Repository)
    (cached : GoMap LanguageDetails) (h : w.cache.store.lookup repo.FullName = some cached) :
    fetchRepositoryLanguages remote w repo = (w, { repo with Languages := cached }) := by
  unfold fetchRepositoryLanguages Cache.Get
  rw [h]

theorem fetch_miss_fail (remote : Nat → String → Response) (w : World) (repo : Repository)
    (h : w.cache.store.lookup repo.FullName = none)
    (hf : LookupFails (remote w.lookups repo.FullName)) :
    (fetchRepositoryLanguages remote w repo).1.cache = w.cache ∧
    (fetchRepositoryLanguages remote w repo).2 = repo := by
  unfold fetchRepositoryLanguages Cache.Get
  rw [h]
  cases hr : remote w.lookups repo.FullName with
  | newRequestError => exact ⟨rfl, rfl⟩
  | doError => exact ⟨rfl, rfl⟩
  | status code body =>
    rw [hr] at hf
    by_cases hc : code ≠ 200
    · simp [hc]
    · rcases hf with hf | hf
      · exact absurd hf hc
      · subst hf
        simp

theorem fetch_miss_ok (remote : Nat → String → Response) (w : World) (repo : Repository)
    (languages : GoMap Int) (h : w.cache.store.lookup repo.FullName = none)
    (hr : remote w.lookups repo.FullName = Response.status 200 (some languages)) :
    fetchRepositoryLanguages remote w repo =
      ({ cache := w.cache.Set repo.FullName (toLangDetails languages),
         lookups := w.lookups + 1 },
       { repo with Languages := toLangDetails languages }) := by
  unfold fetchRepositoryLanguages Cache.Get
  rw [h]
  simp [hr]

/-- Every lookup either fails or answers status 200 with a body that decodes. -/
theorem response_cases (r : Response) :
    LookupFails r ∨ ∃ languages, r = Response.status 200 (some languages) := by
  cases r with
  | newRequestError => exact Or.inl trivial
  | doError => exact Or.inl trivial
  | status code body =>
    by_cases hc : code = 200
    · cases body with
      | none => exact Or.inl (Or.inr rfl)
      | some languages => exact Or.inr ⟨languages, by rw [hc]⟩
    · exact Or.inl (Or.inl hc)

theorem enrichAt_inv (remote : Nat → String → Response) (cache0 : Cache)
    (s : World × List Repository) (i : Nat) (hinv : EnrichInv remote cache0 s) :
    EnrichInv remote cache0 (enrichAt remote s i) := by
  obtain ⟨hc, hr⟩ := hinv
  unfold enrichAt
  cases hget : s.2[i]? with
  | none => exact ⟨hc, hr⟩
  | some repo =>
    have hrepo : repo ∈ s.2 := List.getElem?_mem hget
    cases hl : s.1.cache.store.lookup repo.FullName with
    | some cached =>
      simp only [fetch_hit remote s.1 repo cached hl]
      refine ⟨hc, ?_⟩
      intro r hrmem
      rcases List.mem_or_eq_of_mem_set hrmem with hold | rfl
      · exact hr r hold
      · exact Or.inr hl
    | none =>
      rcases response_cases (remote s.1.lookups repo.FullName) with hf | ⟨languages, hok⟩
      · obtain ⟨h1, h2⟩ := fetch_miss_fail remote s.1 repo hl hf
        simp only [h2]
        refine ⟨?_, ?_⟩
        · intro id v hv
          rw [h1] at hv
          exact hc id v hv
        · intro r hrmem
          rw [h1]
          rcases List.mem_or_eq_of_mem_set hrmem with hold | rfl
          · exact hr r hold
          · exact hr r hrepo
      · simp only [fetch_miss_ok remote s.1 repo languages hl hok, Cache.Set]
        refine ⟨?_, ?_⟩
        · intro id v hv
          by_cases hid : id = repo.FullName
          · subst hid
            rw [AList.lookup_insert] at hv
            exact Or.inr ⟨s.1.lookups, languages, hok, (Option.some.inj hv).symm⟩
          · rw [AList.lookup_insert_ne hid] at hv
            exact hc id v hv
        · intro r hrmem
          rcases List.mem_or_eq_of_mem_set hrmem with hold | rfl
          · by_cases hid : r.FullName = repo.FullName
            · rcases hr r hold with he | hs
              · exact Or.inl he
              · rw [hid, hl] at hs
                exact absurd hs (by simp)
            · rcases hr r hold with he | hs
              · exact Or.inl he
              · exact Or.inr (by rw [AList.lookup_insert_ne hid]; exact hs)
          · exact Or.inr (AList.lookup_insert _)

theorem enrich_inv (remote : Nat → String → Response) (cache0 : Cache)
    (order : List Nat) (s : World × List Repository) (hinv : EnrichInv remote cache0 s) :
    EnrichInv remote cache0 (order.foldl (enrichAt remote) s) := by
  induction order generalizing s with
  | nil => exact hinv
  | cons i rest ih => exact ih _ (enrichAt_inv remote cache0 s i hinv)

theorem enrichAt_shape (remote : Nat → String → Response) (s : World × List Repository)
    (i : Nat) :
    (enrichAt remote s i).2.length = s.2.length ∧
    (enrichAt remote s i).2.map (fun repo => repo.FullName) =
      s.2.map (fun repo => repo.FullName) := by
  unfold enrichAt
  cases hget : s.2[i]? with
  | none => exact ⟨rfl, rfl⟩
  | some repo =>
    have hname : (fetchRepositoryLanguages remote s.1 repo).2.FullName = repo.FullName := by
      cases hl : s.1.cache.store.lookup repo.FullName with
      | some cached => rw [fetch_hit remote s.1 repo cached hl]
      | none =>
        rcases response_cases (remote s.1.lookups repo.FullName) with hf | ⟨languages, hok⟩
        · rw [(fetch_miss_fail remote s.1 repo hl hf).2]
        · rw [fetch_miss_ok remote s.1 repo languages hl hok]
    refine ⟨List.length_set _ _ _, ?_⟩
    simp only
    apply List.ext_getElem?
    intro j
    rw [List.getElem?_map, List.getElem?_map]
    by_cases hij : i = j
    · subst hij
      obtain ⟨hlt, -⟩ := List.getElem?_eq_some.mp hget
      rw [List.getElem?_set_self hlt, hget]
      simp [hname]
    · rw [List.getElem?_set_ne hij]

theorem enrich_shape (remote : Nat → String → Response) (order : List Nat)
    (s : World × List Repository) :
    (order.foldl (enrichAt remote) s).2.length = s.2.length ∧
    (order.foldl (enrichAt remote) s).2.map (fun repo => repo.FullName) =
      s.2.map (fun repo => repo.FullName) := by
  induction order generalizing s with
  | nil => exact ⟨rfl, rfl⟩
  | cons i rest ih =>
    obtain ⟨h1, h2⟩ := ih (enrichAt remote s i)
    obtain ⟨h3, h4⟩ := enrichAt_shape remote s i
    exact ⟨h1.trans h3, h2.trans h4⟩

/-- C8: from any initial cache, for a store whose records all start with an empty
language map and any remote, after `fetchRepositoryLanguages` has run on the
slots listed in `order` one after the other (any order, so in particular one
that visits every record once), the store has the same length and identifiers,
and each record's language map is empty or is exactly the value the cache then
holds for the record's identifier, a value with a single source: the initial
cache or one successful lookup. -/
theorem enrich_record_maps (remote : Nat → String → Response) (w : World)
    (repositories : List Repository) (order : List Nat)
    (hempty : ∀ repo ∈ repositories, repo.Languages.entries = []) :
    (worker remote w repositories order).2.length = repositories.length ∧
    (worker remote w repositories order).2.map (fun repo => repo.FullName) =
      repositories.map (fun repo => repo.FullName) ∧
    ∀ repo ∈ (worker remote w repositories order).2,
      repo.Languages.entries = [] ∨
      ((worker remote w repositories order).1.cache.store.lookup repo.FullName =
          some repo.Languages ∧
        SingleSource remote w.cache repo.FullName repo.Languages) := by
  have h0 : EnrichInv remote w.cache (w, repositories) :=
    ⟨fun id v hv => Or.inl hv, fun repo hrepo => Or.inl (hempty repo hrepo)⟩
  obtain ⟨hc, hr⟩ := enrich_inv remote w.cache order (w, repositories) h0
  obtain ⟨hlen, hnames⟩ := enrich_shape remote order (w, repositories)
  refine ⟨hlen, hnames, ?_⟩
  intro repo hrepo
  rcases hr repo hrepo with he | hs
  · exact Or.inl he
  · exact Or.inr ⟨hs, hc _ _ hs⟩

/-- C8 at a store of three records, two of them with the same identifier,
visited in the order 1, 0, 2 with a remote that answers only its first request:
slot 1 is looked up, slot 0 is served from the cache, slot 2 fails. -/
theorem enrich_record_maps_witness :
    (∀ repo ∈ [bareRepo "a/1", bareRepo "a/1", bareRepo "a/2"], repo.Languages.entries = []) ∧
    (worker onceRemote coldWorld
        [bareRepo "a/1", bareRepo "a/1", bareRepo "a/2"] [1, 0, 2]).2.map
      (fun repo => repo.Languages.lookup "Go") = [some ⟨7⟩, some ⟨7⟩, none] ∧
    ∀ repo ∈ (worker onceRemote coldWorld
        [bareRepo "a/1", bareRepo "a/1", bareRepo "a/2"] [1, 0, 2]).2,
      repo.Languages.entries = [] ∨
      ((worker onceRemote coldWorld
          [bareRepo "a/1", bareRepo "a/1", bareRepo "a/2"] [1, 0, 2]).1.cache.store.lookup
            repo.FullName = some repo.Languages ∧
        SingleSource onceRemote coldWorld.cache repo.FullName repo.Languages) :=
  ⟨by decide, by rfl,
    (enrich_record_maps onceRemote coldWorld
      [bareRepo "a/1", bareRepo "a/1", bareRepo "a/2"] [1, 0, 2] (by decide)).2.2⟩

/-- C9: `Cache.Get` leaves the cache as it is, so a second `Get` returns what
the first returned, and `Get` after `Set(key, v)` returns `(v, true)`; for a
record whose identifier is in the cache, `fetchRepositoryLanguages` sends no
request, leaves the cache as it is and sets the record's language map to the
cached value, whatever the remote would answer. -/
theorem cache_memoization (c : Cache) (key : String) (v : GoMap LanguageDetails)
    (remote : Nat → String → Response) (w : World) (repo : Repository)
    (cached : GoMap LanguageDetails)
    (hhit : (w.cache.Get repo.FullName).1 = (cached, true)) :
    (c.Get key).2 = c ∧
    ((c.Get key).2.Get key).1 = (c.Get key).1 ∧
    ((c.Set key v).Get key).1 = (v, true) ∧
    (fetchRepositoryLanguages remote w repo).1.lookups = w.lookups ∧
    (fetchRepositoryLanguages remote w repo).1.cache = w.cache ∧
    (fetchRepositoryLanguages remote w repo).2 = { repo with Languages := cached } := by
  have hget : ∀ (c' : Cache) (k : String), (c'.Get k).2 = c' := by
    intro c' k
    unfold Cache.Get
    cases c'.store.lookup k <;> rfl
  have hl : w.cache.store.lookup repo.FullName = some cached := by
    unfold Cache.Get at hhit
    cases hlk : w.cache.store.lookup repo.FullName with
    | none => rw [hlk] at hhit; simp at hhit
    | some x =>
      rw [hlk] at hhit
      simp only [Prod.mk.injEq, and_true] at hhit
      rw [hhit]
  refine ⟨hget c key, by rw [hget c key], ?_, ?_⟩
  · unfold Cache.Get Cache.Set
    simp only [AList.lookup_insert]
  · rw [fetch_hit remote w repo cached hl]
    exact ⟨rfl, rfl, rfl⟩

/-- C9 at a cache that holds the language map of record A. -/
theorem cache_memoization_witness :
    (warmWorld.cache.Get (bareRepo "o/A").FullName).1 = (repoA.Languages, true) ∧
    (fetchRepositoryLanguages failingRemote warmWorld (bareRepo "o/A")).1.lookups = 3 ∧
    (fetchRepositoryLanguages failingRemote warmWorld (bareRepo "o/A")).2 =
      { bareRepo "o/A" with Languages := repoA.Languages } :=
  ⟨by rfl,
    (cache_memoization warmWorld.cache "o/A" ∅ failingRemote warmWorld (bareRepo "o/A")
      repoA.Languages (by rfl)).2.2.2.1,
    (cache_memoization warmWorld.cache "o/A" ∅ failingRemote warmWorld (bareRepo "o/A")
      repoA.Languages (by rfl)).2.2.2.2.2⟩

/-- C10, counterexample to the statement as written: for a record that already has the language
map `{Go: 0}`, an identifier missing from the cache and a failing lookup, the
call leaves that map in place, so the record's language map is not empty. -/
theorem fetch_failure_keeps_nonempty_map :
    coldWorld.cache.store.lookup zeroRepo.FullName = none ∧
    LookupFails (failingRemote coldWorld.lookups zeroRepo.FullName) ∧
    (fetchRepositoryLanguages failingRemote coldWorld zeroRepo).2.Languages.lookup "Go" =
      some ⟨0⟩ ∧
    (fetchRepositoryLanguages failingRemote coldWorld zeroRepo).2.Languages.entries ≠ [] := by
  refine ⟨by rfl, trivial, by rfl, by decide⟩

/-- C10, amended: for a record whose identifier is not in the cache and whose
remote lookup fails, `fetchRepositoryLanguages` returns with the cache unchanged
(no entry for the identifier) and the record unchanged: identifier, owner,
short name, license and language map, which is therefore empty when it was
empty before the call; the store keeps the record in its slot. -/
theorem fetch_failure_leaves_record (remote : Nat → String → Response) (w : World)
    (repo : Repository) (hmiss : (w.cache.Get repo.FullName).1.2 = false)
    (hfail : LookupFails (remote w.lookups repo.FullName)) :
    (fetchRepositoryLanguages remote w repo).1.cache = w.cache ∧
    (fetchRepositoryLanguages remote w repo).1.cache.store.lookup repo.FullName = none ∧
    (fetchRepositoryLanguages remote w repo).2 = repo ∧
    (repo.Languages.entries = [] →
      (fetchRepositoryLanguages remote w repo).2.Languages.entries = []) ∧
    (∀ (repositories : List Repository) (i : Nat), repositories[i]? = some repo →
      (enrichAt remote (w, repositories) i).2 = repositories) := by
  have hl : w.cache.store.lookup repo.FullName = none := by
    unfold Cache.Get at hmiss
    cases hlk : w.cache.store.lookup repo.FullName with
    | none => rfl
    | some x => rw [hlk] at hmiss; simp at hmiss
  obtain ⟨h1, h2⟩ := fetch_miss_fail remote w repo hl hfail
  refine ⟨h1, by rw [h1]; exact hl, h2, fun he => by rw [h2]; exact he, ?_⟩
  intro repositories i hi
  unfold enrichAt
  simp only [hi, h2]
  apply List.ext_getElem?
  intro j
  by_cases hij : i = j
  · subst hij
    obtain ⟨hlt, -⟩ := List.getElem?_eq_some.mp hi
    rw [List.getElem?_set_self hlt, hi]
  · rw [List.getElem?_set_ne hij]

/-- C10 (amended) at an empty cache, a failing remote and a record without
language data. -/
theorem fetch_failure_leaves_record_witness :
    (coldWorld.cache.Get (bareRepo "a/1").FullName).1.2 = false ∧
    LookupFails (failingRemote coldWorld.lookups (bareRepo "a/1").FullName) ∧
    (fetchRepositoryLanguages failingRemote coldWorld (bareRepo "a/1")).2 = bareRepo "a/1" :=
  ⟨by rfl, trivial,
    (fetch_failure_leaves_record failingRemote coldWorld (bareRepo "a/1")
      (by rfl) trivial).2.2.1⟩

end Scalingo
